/-
Verification of the skyscribe core against its specification.

The development shallowly embeds the three core modules:
  * `path_simplifier.py`  — Douglas-Peucker simplification with corner detection
  * `path_transitions.py` — stroke ordering, altitude assembly, kinematic timing
  * `coord_transformer.py`— local ENU to geodetic projection with rotation

Planar points for the simplifier are modelled over ℚ (exact arithmetic, fully
executable); waypoints for the transition engine and projector are modelled
over ℝ because the source computes Euclidean norms, `arccos` and trigonometric
rotations.
-/
import Mathlib

namespace Skyscribe

/-! ## Simplifier (`path_simplifier.py`)

`PathSimplifier.simplify_path` guards `len(points) < 3` and otherwise calls
`simplification.cutil.simplify_coords`, an external Douglas-Peucker
implementation that is not part of this repository.  `rdp` below is
modelled from the spec (§4.1): recursively find the interior point of maximum
perpendicular distance from the chord joining the first and last point; if
that distance exceeds `epsilon` keep the point and recurse on both halves
(sharing the split point, deduplicated on concatenation), otherwise collapse
the subsequence to its two endpoints.

Distances are compared through their squares so that everything stays in ℚ:
for a fixed chord, `pd i < pd j ↔ pdSq i < pdSq j`, and `pd > ε` is encoded
sign-faithfully as `ε < 0 ∨ ε² < pdSq`. -/

abbrev Q2 := ℚ × ℚ

/-- Squared perpendicular distance from `p` to the line through `a` and `b`
(squared Euclidean distance to `a` when the chord is degenerate). -/
def perpDistSq (a b p : Q2) : ℚ :=
  let dx := b.1 - a.1
  let dy := b.2 - a.2
  let L := dx ^ 2 + dy ^ 2
  if L = 0 then (p.1 - a.1) ^ 2 + (p.2 - a.2) ^ 2
  else (dx * (p.2 - a.2) - dy * (p.1 - a.1)) ^ 2 / L

/-- First index attaining the maximal squared perpendicular distance to the
chord `(a, b)` among the listed points, together with that maximum. -/
def findMax (a b : Q2) : List Q2 → Option (ℕ × ℚ)
  | [] => none
  | p :: ps =>
    let d := perpDistSq a b p
    match findMax a b ps with
    | none => some (0, d)
    | some (j, m) => if d < m then some (j + 1, m) else some (0, d)

/-- Characterisation of a `findMax` result: the returned index is in range,
carries the returned value, every point is bounded by it, and every earlier
point is strictly below it (first-max tie-breaking). -/
def FindMaxSpec (a b : Q2) (l : List Q2) (j : ℕ) (m : ℚ) : Prop :=
  j < l.length ∧ m = perpDistSq a b (l.getD j (0, 0)) ∧
    (∀ i < l.length, perpDistSq a b (l.getD i (0, 0)) ≤ m) ∧
    (∀ i < j, perpDistSq a b (l.getD i (0, 0)) < m)

lemma findMax_ne_none (a b : Q2) (p : Q2) (ps : List Q2) :
    findMax a b (p :: ps) ≠ none := by
  simp only [findMax]
  cases findMax a b ps with
  | none => simp
  | some jm =>
    obtain ⟨j, m⟩ := jm
    by_cases h : perpDistSq a b p < m <;> simp [h]

lemma findMax_sound (a b : Q2) :
    ∀ (l : List Q2) (j : ℕ) (m : ℚ),
      findMax a b l = some (j, m) → FindMaxSpec a b l j m := by
  intro l
  induction l with
  | nil => intro j m h; simp [findMax] at h
  | cons p ps ih =>
    intro j m h
    rcases hps : findMax a b ps with _ | ⟨j₀, m₀⟩
    · have hnil : ps = [] := by
        cases ps with
        | nil => rfl
        | cons q qs => exact absurd hps (findMax_ne_none a b q qs)
      subst hnil
      simp [findMax] at h
      obtain ⟨hj, hm⟩ := h
      refine ⟨?_, ?_, ?_, ?_⟩ <;> subst hj <;> simp [hm.symm]
    · have hspec₀ := ih j₀ m₀ hps
      obtain ⟨hlt₀, hval₀, hle₀, hstrict₀⟩ := hspec₀
      simp only [findMax, hps] at h
      by_cases hc : perpDistSq a b p < m₀
      · simp only [hc, if_pos, Option.some.injEq, Prod.mk.injEq] at h
        obtain ⟨rfl, rfl⟩ := h
        refine ⟨by simpa using Nat.succ_lt_succ hlt₀, by simpa using hval₀, ?_, ?_⟩
        · intro i hi
          cases i with
          | zero => simpa using le_of_lt hc
          | succ i' => exact hle₀ i' (by simpa using hi)
        · intro i hi
          cases i with
          | zero => simpa using hc
          | succ i' => exact hstrict₀ i' (by simpa using hi)
      · simp only [hc, if_neg, if_false, Option.some.injEq, Prod.mk.injEq] at h
        obtain ⟨rfl, rfl⟩ := h
        refine ⟨by simp, by simp, ?_, ?_⟩
        · intro i hi
          cases i with
          | zero => simp
          | succ i' =>
            have := hle₀ i' (by simpa using hi)
            have hm₀ : m₀ ≤ perpDistSq a b p := le_of_not_lt hc
            simpa using this.trans hm₀
        · intro i hi; omega

lemma findMaxSpec_unique (a b : Q2) (l : List Q2) {j j' : ℕ} {m m' : ℚ}
    (h : FindMaxSpec a b l j m) (h' : FindMaxSpec a b l j' m') :
    j = j' ∧ m = m' := by
  obtain ⟨hj, hv, hle, hst⟩ := h
  obtain ⟨hj', hv', hle', hst'⟩ := h'
  have hmm : m = m' := by
    have h1 : m ≤ m' := hv ▸ hle' j hj
    have h2 : m' ≤ m := hv' ▸ hle j' hj'
    exact le_antisymm h1 h2
  refine ⟨?_, hmm⟩
  rcases Nat.lt_trichotomy j j' with h | h | h
  · exact absurd (hv ▸ hst' j h) (by simp [hmm])
  · exact h
  · exact absurd (hv' ▸ hst j' h) (by simp [hmm])

lemma findMax_complete (a b : Q2) (l : List Q2) (j : ℕ) (m : ℚ)
    (h : FindMaxSpec a b l j m) : findMax a b l = some (j, m) := by
  have hne : l ≠ [] := by
    intro hl; subst hl; exact absurd h.1 (by simp)
  obtain ⟨p, ps, rfl⟩ := List.exists_cons_of_ne_nil hne
  rcases hfm : findMax a b (p :: ps) with _ | ⟨j₁, m₁⟩
  · exact absurd hfm (findMax_ne_none a b p ps)
  · have hspec := findMax_sound a b (p :: ps) j₁ m₁ hfm
    obtain ⟨hj, hm⟩ := findMaxSpec_unique a b (p :: ps) h hspec
    simp [hj, hm]

/-- Modelled from the spec: the recursive Douglas-Peucker reduction performed
by the external `simplification.cutil.simplify_coords` library (not part of
this repository), following §4.1 word for word: find the interior point of
maximum perpendicular distance from the chord; if that distance exceeds
`epsilon`, keep it and recurse on both halves (the split point is shared and
deduplicated on concatenation), otherwise collapse to the two endpoints. -/
def rdp (ε : ℚ) (pts : List Q2) : List Q2 :=
  if _h : pts.length < 3 then pts
  else
    let a := pts.headI
    let b := pts.getLastD (0, 0)
    match hfm : findMax a b pts.tail.dropLast with
    | none => pts
    | some (j, m) =>
      if ε < 0 ∨ ε ^ 2 < m then
        rdp ε (pts.take (j + 2)) ++ (rdp ε (pts.drop (j + 1))).tail
      else [a, b]
termination_by pts.length
decreasing_by
  · have hj : j < pts.tail.dropLast.length := (findMax_sound _ _ _ _ _ hfm).1
    simp only [List.length_dropLast, List.length_tail] at hj
    simp only [List.length_take]
    omega
  · simp only [List.length_drop]
    omega

lemma rdp_eq_of_short {ε : ℚ} {pts : List Q2} (hlen : pts.length < 3) :
    rdp ε pts = pts := by
  rw [rdp]; simp [hlen]

lemma rdp_eq_of_split {ε : ℚ} {pts : List Q2} {j : ℕ} {m : ℚ}
    (hlen : ¬ pts.length < 3)
    (hfm : findMax pts.headI (pts.getLastD (0, 0)) pts.tail.dropLast = some (j, m))
    (hc : ε < 0 ∨ ε ^ 2 < m) :
    rdp ε pts = rdp ε (pts.take (j + 2)) ++ (rdp ε (pts.drop (j + 1))).tail := by
  rw [rdp]
  simp only [hlen, dite_false]
  split
  · rename_i heq
    rw [hfm] at heq; cases heq
  · rename_i j' m' heq
    rw [hfm] at heq
    obtain ⟨rfl, rfl⟩ : j' = j ∧ m' = m := by
      simpa [Option.some.injEq, Prod.mk.injEq] using heq.symm
    simp [hc]

lemma rdp_eq_of_collapse {ε : ℚ} {pts : List Q2} {j : ℕ} {m : ℚ}
    (hlen : ¬ pts.length < 3)
    (hfm : findMax pts.headI (pts.getLastD (0, 0)) pts.tail.dropLast = some (j, m))
    (hc : ¬ (ε < 0 ∨ ε ^ 2 < m)) :
    rdp ε pts = [pts.headI, pts.getLastD (0, 0)] := by
  rw [rdp]
  simp only [hlen, dite_false]
  split
  · rename_i heq
    rw [hfm] at heq; cases heq
  · rename_i j' m' heq
    rw [hfm] at heq
    obtain ⟨rfl, rfl⟩ : j' = j ∧ m' = m := by
      simpa [Option.some.injEq, Prod.mk.injEq] using heq.symm
    simp [hc]

/-- A list with head `a`, last element `b` and at least two entries contains
`[a, b]` as a sublist. -/
lemma pair_sublist_of_head_last {l : List Q2} {a b : Q2}
    (hh : l.head? = some a) (hl : l.getLast? = some b) (h2 : 2 ≤ l.length) :
    List.Sublist [a, b] l := by
  obtain ⟨ys, hys⟩ := List.getLast?_eq_some_iff.mp hl
  cases l with
  | nil => simp at hh
  | cons x t =>
    simp only [List.head?_cons, Option.some.injEq] at hh
    subst hh
    cases ys with
    | nil =>
      simp only [List.nil_append, List.cons.injEq] at hys
      obtain ⟨rfl, rfl⟩ := hys
      simp at h2
    | cons y ys' =>
      simp only [List.cons_append, List.cons.injEq] at hys
      obtain ⟨rfl, rfl⟩ := hys
      exact List.Sublist.cons₂ _ (List.singleton_sublist.mpr (by simp))

/-- Dropping the final element of a sublist of `M ++ [c]` yields a sublist of
`M`. -/
lemma dropLast_sublist_of_sublist_concat {X M : List Q2} {c : Q2}
    (h : List.Sublist X (M ++ [c])) : List.Sublist X.dropLast M := by
  induction M generalizing X with
  | nil =>
    simp only [List.nil_append] at h
    rcases List.sublist_singleton.mp h with rfl | rfl <;> simp
  | cons y M' ih =>
    cases h with
    | cons _ h' => exact (ih h').trans (List.sublist_cons_self y M')
    | cons₂ _ h' =>
      rename_i X'
      cases X' with
      | nil => simp
      | cons z Z =>
        rw [List.dropLast_cons₂]
        exact List.Sublist.cons₂ y (ih h')

lemma rdp_eq_of_none {ε : ℚ} {pts : List Q2}
    (hlen : ¬ pts.length < 3)
    (hfm : findMax pts.headI (pts.getLastD (0, 0)) pts.tail.dropLast = none) :
    rdp ε pts = pts := by
  rw [rdp]
  simp only [hlen, dite_false]
  split
  · rfl
  · rename_i j' m' heq
    rw [hfm] at heq; cases heq

lemma head?_of_ne_nil {l : List Q2} (h : l ≠ []) : l.head? = some l.headI := by
  cases l with
  | nil => exact absurd rfl h
  | cons x t => rfl

lemma getLast?_of_ne_nil {l : List Q2} (h : l ≠ []) :
    l.getLast? = some (l.getLastD (0, 0)) := by
  rw [List.getLastD_eq_getLast?, List.getLast?_eq_getLast l h]
  rfl

lemma mid_length {pts : List Q2} :
    pts.tail.dropLast.length = pts.length - 2 := by
  simp only [List.length_dropLast, List.length_tail]
  omega

/-- The Douglas-Peucker output is a sublist of its input. -/
lemma rdp_sublist (ε : ℚ) : ∀ pts : List Q2, List.Sublist (rdp ε pts) pts := by
  intro pts
  induction pts using rdp.induct ε with
  | case1 x hlen => rw [rdp_eq_of_short hlen]
  | case2 x hlen a b hfm => rw [rdp_eq_of_none hlen hfm]
  | case3 x hlen a b j m hfm hc ih₁ ih₂ =>
    rw [rdp_eq_of_split hlen hfm hc]
    have h₂ : List.Sublist (rdp ε (x.drop (j + 1))).tail (x.drop (j + 2)) := by
      have := (ih₂).tail
      rwa [List.tail_drop] at this
    have h₃ := List.Sublist.append ih₁ h₂
    rwa [List.take_append_drop] at h₃
  | case4 x hlen a b j m hfm hc =>
    rw [rdp_eq_of_collapse hlen hfm hc]
    have hne : x ≠ [] := by
      intro h; subst h; simp at hlen
    exact pair_sublist_of_head_last (head?_of_ne_nil hne) (getLast?_of_ne_nil hne)
      (by omega)

/-- The Douglas-Peucker output of a list with at least two points again has at
least two points and the same first and last point. -/
lemma rdp_shape (ε : ℚ) : ∀ pts : List Q2, 2 ≤ pts.length →
    2 ≤ (rdp ε pts).length ∧ (rdp ε pts).head? = pts.head? ∧
      (rdp ε pts).getLast? = pts.getLast? := by
  intro pts
  induction pts using rdp.induct ε with
  | case1 x hlen => intro h2; rw [rdp_eq_of_short hlen]; exact ⟨h2, rfl, rfl⟩
  | case2 x hlen a b hfm => intro h2; rw [rdp_eq_of_none hlen hfm]; exact ⟨h2, rfl, rfl⟩
  | case3 x hlen a b j m hfm hc ih₁ ih₂ =>
    intro _h2
    have hj : j < x.length - 2 := by
      have := (findMax_sound _ _ _ _ _ hfm).1
      rwa [mid_length] at this
    have hlen3 : 3 ≤ x.length := by omega
    have hT : (x.take (j + 2)).length = j + 2 := by
      simp only [List.length_take]; omega
    have hD : 2 ≤ (x.drop (j + 1)).length := by
      simp only [List.length_drop]; omega
    obtain ⟨hL2, hLh, hLl⟩ := ih₁ (by omega)
    obtain ⟨hR2, hRh, hRl⟩ := ih₂ hD
    rw [rdp_eq_of_split hlen hfm hc]
    have hLne : rdp ε (x.take (j + 2)) ≠ [] := by
      intro h; rw [h] at hL2; simp at hL2
    have hRtne : (rdp ε (x.drop (j + 1))).tail ≠ [] := by
      have : (rdp ε (x.drop (j + 1))).tail.length =
          (rdp ε (x.drop (j + 1))).length - 1 := by simp
      intro h; rw [h] at this; simp at this; omega
    refine ⟨?_, ?_, ?_⟩
    · have : (rdp ε (x.drop (j + 1))).tail.length =
          (rdp ε (x.drop (j + 1))).length - 1 := by simp
      simp only [List.length_append]
      omega
    · have hxne : x ≠ [] := by
        intro h; subst h; simp at hlen
      rw [List.head?_append, hLh, List.head?_take, if_neg (by omega : ¬ (j + 2 = 0)),
        head?_of_ne_nil hxne]
      simp
    · rw [List.getLast?_append]
      have htail : (rdp ε (x.drop (j + 1))).tail.getLast? =
          (rdp ε (x.drop (j + 1))).getLast? := by
        rw [List.getLast?_tail,
          if_neg (by omega : ¬ ((rdp ε (x.drop (j + 1))).length = 1))]
      rw [htail, hRl]
      have hdropne : x.drop (j + 1) ≠ [] := by
        intro h; rw [h] at hD; simp at hD
      have hgl : (x.drop (j + 1)).getLast? = x.getLast? := by
        conv_rhs => rw [← List.take_append_drop (j + 1) x, List.getLast?_append]
        rw [getLast?_of_ne_nil hdropne]
        simp
      have hxne : x ≠ [] := by
        intro h; subst h; simp at hlen
      rw [hgl, getLast?_of_ne_nil hxne]
      simp
  | case4 x hlen a b j m hfm hc =>
    intro _h2
    have hne : x ≠ [] := by
      intro h; subst h; simp at hlen
    rw [rdp_eq_of_collapse hlen hfm hc]
    refine ⟨by simp, ?_, ?_⟩
    · rw [head?_of_ne_nil hne]; rfl
    · rw [getLast?_of_ne_nil hne]; rfl

lemma perpDistSq_nonneg (a b p : Q2) : 0 ≤ perpDistSq a b p := by
  simp only [perpDistSq]
  split
  · positivity
  · rename_i hL
    apply div_nonneg (by positivity)
    have h0 : 0 ≤ (b.1 - a.1) ^ 2 + (b.2 - a.2) ^ 2 := by positivity
    exact h0

lemma perpDistSq_self_left (a b : Q2) : perpDistSq a b a = 0 := by
  simp only [perpDistSq]
  split <;> simp

lemma perpDistSq_self_right (a b : Q2) : perpDistSq a b b = 0 := by
  simp only [perpDistSq]
  split
  · rename_i hL
    exact hL
  · ring_nf

lemma eq_cons_of_head? {l : List Q2} {y : Q2} (h : l.head? = some y) :
    l = y :: l.tail := by
  cases l with
  | nil => simp at h
  | cons x t =>
    simp only [List.head?_cons, Option.some.injEq] at h
    rw [h]
    rfl

lemma getLast?_tail_of_two {l : List Q2} (h : 2 ≤ l.length) :
    l.tail.getLast? = l.getLast? := by
  rw [List.getLast?_tail, if_neg (by omega)]

lemma drop_length_sub_one {l : List Q2} {c : Q2} (h : l.getLast? = some c) :
    l.drop (l.length - 1) = [c] := by
  obtain ⟨ys, rfl⟩ := List.getLast?_eq_some_iff.mp h
  exact List.drop_left' (by simp)

lemma getD_last_of {l : List Q2} {c : Q2} (h : l.getLast? = some c)
    (hne : l ≠ []) : l.getD (l.length - 1) (0, 0) = c := by
  have hlen : 0 < l.length := List.length_pos.mpr hne
  have hgl := List.getLast?_eq_getLast l hne
  rw [h] at hgl
  have hc : c = l.getLast hne := by simpa using hgl
  rw [List.getD_eq_getElem?_getD, List.getElem?_eq_getElem (by omega), Option.getD_some,
    hc, List.getLast_eq_getElem]

/-- Canonical decomposition of a list with at least three entries into head,
interior and last entry. -/
lemma list_decomp {pts : List Q2} (h3 : ¬ pts.length < 3) :
    pts = pts.headI :: (pts.tail.dropLast ++ [pts.getLastD (0, 0)]) := by
  cases pts with
  | nil => simp at h3
  | cons x t =>
    have ht : t ≠ [] := by
      intro h; subst h; simp at h3
    have h1 : (x :: t).getLastD (0, 0) = t.getLast ht := by
      rw [List.getLastD_eq_getLast?, List.getLast?_eq_getLast (x :: t) (by simp),
        Option.getD_some, List.getLast_cons ht]
    simp only [List.headI, List.tail_cons, h1]
    rw [List.dropLast_concat_getLast ht]

lemma take_decomp {pts : List Q2} {j : ℕ} (h3 : ¬ pts.length < 3)
    (hj : j < pts.tail.dropLast.length) :
    pts.take (j + 2) =
      pts.headI ::
        (pts.tail.dropLast.take j ++ [pts.tail.dropLast.getD j (0, 0)]) := by
  conv_lhs => rw [list_decomp h3]
  simp only [List.take_succ_cons]
  congr 1
  rw [List.take_append_of_le_length (by omega : j + 1 ≤ pts.tail.dropLast.length),
    List.take_succ, List.getElem?_eq_getElem hj]
  congr 1
  rw [List.getD_eq_getElem?_getD, List.getElem?_eq_getElem hj, Option.getD_some]
  rfl

lemma drop_decomp {pts : List Q2} {j : ℕ} (h3 : ¬ pts.length < 3)
    (hj : j < pts.tail.dropLast.length) :
    pts.drop (j + 1) =
      pts.tail.dropLast.getD j (0, 0) ::
        (pts.tail.dropLast.drop (j + 1) ++ [pts.getLastD (0, 0)]) := by
  conv_lhs => rw [list_decomp h3]
  simp only [List.drop_succ_cons]
  rw [List.drop_append_of_le_length (by omega : j ≤ pts.tail.dropLast.length),
    List.drop_eq_getElem_cons hj]
  rw [List.getD_eq_getElem?_getD, List.getElem?_eq_getElem hj, Option.getD_some]
  rfl

/-- Every point of the input list has perpendicular distance bounded by the
`findMax` maximum. -/
lemma pd_le_of_mem {pts : List Q2} {j : ℕ} {m : ℚ} (h3 : ¬ pts.length < 3)
    (hfm : findMax pts.headI (pts.getLastD (0, 0)) pts.tail.dropLast
      = some (j, m)) :
    ∀ p ∈ pts, perpDistSq pts.headI (pts.getLastD (0, 0)) p ≤ m := by
  obtain ⟨hj, hm, hle, _⟩ := findMax_sound _ _ _ _ _ hfm
  have hm0 : 0 ≤ m := hm ▸ perpDistSq_nonneg _ _ _
  intro p hp
  rw [list_decomp h3] at hp
  rcases List.mem_cons.mp hp with rfl | hp
  · rw [perpDistSq_self_left]; exact hm0
  · rcases List.mem_append.mp hp with hp | hp
    · obtain ⟨i, hi, rfl⟩ := List.mem_iff_getElem.mp hp
      have := hle i hi
      rwa [List.getD_eq_getElem?_getD, List.getElem?_eq_getElem hi,
        Option.getD_some] at this
    · have : p = pts.getLastD (0, 0) := by simpa using hp
      subst this
      rw [perpDistSq_self_right]
      exact hm0

/-- Every point strictly before the `findMax` split has strictly smaller
perpendicular distance. -/
lemma pd_lt_of_mem_take {pts : List Q2} {j : ℕ} {m : ℚ} (_h3 : ¬ pts.length < 3)
    (hfm : findMax pts.headI (pts.getLastD (0, 0)) pts.tail.dropLast
      = some (j, m)) :
    ∀ p ∈ pts.tail.dropLast.take j,
      perpDistSq pts.headI (pts.getLastD (0, 0)) p < m := by
  obtain ⟨hj, hm, hle, hst⟩ := findMax_sound _ _ _ _ _ hfm
  intro p hp
  obtain ⟨i, hi, rfl⟩ := List.mem_iff_getElem.mp hp
  have hi' : i < j := by
    have := hi
    simp only [List.length_take] at this
    omega
  have hilen : i < pts.tail.dropLast.length := by omega
  have := hst i hi'
  rw [List.getD_eq_getElem?_getD, List.getElem?_eq_getElem hilen,
    Option.getD_some] at this
  rwa [List.getElem_take] at *

/-- Douglas-Peucker is idempotent: simplifying an already simplified list is
the identity. -/
lemma rdp_idem (ε : ℚ) : ∀ pts : List Q2, rdp ε (rdp ε pts) = rdp ε pts := by
  intro pts
  induction pts using rdp.induct ε with
  | case1 x hlen =>
    rw [rdp_eq_of_short hlen, rdp_eq_of_short hlen]
  | case2 x hlen a b hfm =>
    rw [rdp_eq_of_none hlen hfm, rdp_eq_of_none hlen hfm]
  | case4 x hlen a b j m hfm hc =>
    rw [rdp_eq_of_collapse hlen hfm hc]
    exact rdp_eq_of_short (by simp)
  | case3 x hlen a b j m hfm hc ih₁ ih₂ =>
    -- Notation for the split pieces.
    have hxne : x ≠ [] := by
      intro hx; subst hx; simp at hlen
    have hj : j < x.tail.dropLast.length := (findMax_sound _ _ _ _ _ hfm).1
    have hjn : j < x.length - 2 := by rwa [mid_length] at hj
    have hm : m = perpDistSq x.headI (x.getLastD (0, 0))
        (x.tail.dropLast.getD j (0, 0)) := by
      have h := (findMax_sound _ _ _ _ _ hfm).2.1
      rw [List.getD_eq_getElem?_getD, List.getElem?_eq_getElem hj,
        Option.getD_some]
      rwa [List.getD_eq_getElem?_getD, List.getElem?_eq_getElem hj,
        Option.getD_some] at h
    set hd := x.headI with hhd
    set lst := x.getLastD (0, 0) with hlst
    set c := x.tail.dropLast.getD j (0, 0) with hcdef
    set T := x.take (j + 2) with hTdef
    set D := x.drop (j + 1) with hDdef
    set L := rdp ε T with hLdef
    set R := rdp ε D with hRdef
    have hTlen : T.length = j + 2 := by
      rw [hTdef]; simp only [List.length_take]; omega
    have hDlen : D.length = x.length - (j + 1) := by
      rw [hDdef]; simp only [List.length_drop]
    have hThead : T.head? = some hd := by
      rw [hTdef, List.head?_take, if_neg (by omega), head?_of_ne_nil hxne]
    have hTlast : T.getLast? = some c := by
      rw [hTdef, take_decomp hlen hj, hcdef, ← List.cons_append,
        List.getLast?_concat]
    have hDhead : D.head? = some c := by
      rw [hDdef, drop_decomp hlen hj]
      rfl
    have hDlast : D.getLast? = some lst := by
      rw [hDdef, drop_decomp hlen hj, hlst, ← List.cons_append,
        List.getLast?_concat]
    obtain ⟨hL2, hLh, hLl⟩ := rdp_shape ε T (by omega)
    obtain ⟨hR2, hRh, hRl⟩ := rdp_shape ε D (by omega)
    rw [← hLdef] at hL2 hLh hLl
    rw [← hRdef] at hR2 hRh hRl
    rw [hThead] at hLh
    rw [hTlast] at hLl
    rw [hDhead] at hRh
    rw [hDlast] at hRl
    have hLsub : List.Sublist L T := rdp_sublist ε T
    have hRsub : List.Sublist R D := rdp_sublist ε D
    have hLne : L ≠ [] := by intro h; rw [h] at hL2; simp at hL2
    have hRne : R ≠ [] := by intro h; rw [h] at hR2; simp at hR2
    have hRtne : R.tail ≠ [] := by
      intro h
      have := congrArg List.length h
      simp at this
      omega
    have hRcons : R = c :: R.tail := eq_cons_of_head? hRh
    have hLcons : L = hd :: L.tail := eq_cons_of_head? hLh
    have hLtne : L.tail ≠ [] := by
      intro h
      have := congrArg List.length hLcons
      rw [h] at this
      simp at this
      omega
    -- The assembled output and its bookkeeping.
    rw [rdp_eq_of_split hlen hfm hc, ← hTdef, ← hDdef, ← hLdef, ← hRdef]
    set out := L ++ R.tail with houtdef
    have hout_len : out.length = L.length + R.length - 1 := by
      rw [houtdef]
      simp only [List.length_append, List.length_tail]
      omega
    have hout_long : ¬ out.length < 3 := by omega
    have hout_head : out.head? = some hd := by
      rw [houtdef, List.head?_append, hLh]
      rfl
    have hout_headI : out.headI = hd := by
      have := eq_cons_of_head? hout_head
      rw [this]
      rfl
    have hout_last : out.getLast? = some lst := by
      rw [houtdef, List.getLast?_append, getLast?_tail_of_two hR2, hRl]
      rfl
    have hout_lastD : out.getLastD (0, 0) = lst := by
      rw [List.getLastD_eq_getLast?, hout_last]
      rfl
    -- The interior of the output.
    have hout_mid : out.tail.dropLast = L.tail ++ R.tail.dropLast := by
      rw [houtdef, List.tail_append_of_ne_nil hLne,
        List.dropLast_append_of_ne_nil L.tail hRtne]
    have hLt_last : L.tail.getLast? = some c := by
      rw [getLast?_tail_of_two hL2, hLl]
    have hLt_len : L.tail.length = L.length - 1 := by simp
    -- The split index of the second pass sits at the junction point `c`.
    have hspec : FindMaxSpec hd lst out.tail.dropLast (L.length - 2) m := by
      refine ⟨?_, ?_, ?_, ?_⟩
      · rw [hout_mid]
        simp only [List.length_append]
        omega
      · rw [hout_mid, List.getD_eq_getElem?_getD,
          List.getElem?_append_left (by omega : L.length - 2 < L.tail.length),
          ← List.getD_eq_getElem?_getD]
        have : L.length - 2 = L.tail.length - 1 := by omega
        rw [this, getD_last_of hLt_last hLtne]
        exact hm
      · intro i hi
        have hmem : out.tail.dropLast.getD i (0, 0) ∈ out.tail.dropLast := by
          rw [List.getD_eq_getElem?_getD, List.getElem?_eq_getElem hi,
            Option.getD_some]
          exact List.getElem_mem hi
        set p := out.tail.dropLast.getD i (0, 0) with hpdef
        have hpx : p ∈ x := by
          rw [hout_mid] at hmem
          rcases List.mem_append.mp hmem with hp | hp
          · have hpL : p ∈ L := (List.tail_sublist L).subset hp
            have hpT : p ∈ T := hLsub.subset hpL
            exact (List.take_sublist _ _).subset hpT
          · have hpR : p ∈ R := (List.tail_sublist R).subset
              ((List.dropLast_sublist R.tail).subset hp)
            have hpD : p ∈ D := hRsub.subset hpR
            exact (List.drop_sublist _ _).subset hpD
        exact pd_le_of_mem hlen hfm p hpx
      · intro i hi
        have hiL : i < L.tail.length := by omega
        have hiL' : i < L.tail.dropLast.length := by
          simp only [List.length_dropLast]
          omega
        have hval : out.tail.dropLast.getD i (0, 0) = L.tail.dropLast.getD i (0, 0) := by
          rw [hout_mid, List.getD_eq_getElem?_getD,
            List.getElem?_append_left hiL, List.getElem?_eq_getElem hiL,
            Option.getD_some, List.getD_eq_getElem?_getD,
            List.getElem?_eq_getElem hiL', Option.getD_some,
            List.getElem_dropLast]
        have hmem : L.tail.dropLast.getD i (0, 0) ∈ L.tail.dropLast := by
          rw [List.getD_eq_getElem?_getD, List.getElem?_eq_getElem hiL',
            Option.getD_some]
          exact List.getElem_mem hiL'
        have hsubl : List.Sublist L.tail.dropLast (x.tail.dropLast.take j) := by
          have hsub1 : List.Sublist (hd :: L.tail)
              (hd :: (x.tail.dropLast.take j ++ [c])) := by
            rw [← hLcons, ← take_decomp hlen hj]
            exact hLsub
          exact dropLast_sublist_of_sublist_concat
            (List.cons_sublist_cons.mp hsub1)
        have hptake : L.tail.dropLast.getD i (0, 0) ∈ x.tail.dropLast.take j :=
          hsubl.subset hmem
        rw [hval]
        exact pd_lt_of_mem_take hlen hfm _ hptake
    have hfm2 : findMax out.headI (out.getLastD (0, 0)) out.tail.dropLast
        = some (L.length - 2, m) := by
      rw [hout_headI, hout_lastD]
      exact findMax_complete _ _ _ _ _ hspec
    rw [rdp_eq_of_split hout_long hfm2 hc]
    have htake : out.take (L.length - 2 + 2) = L := by
      have : L.length - 2 + 2 = L.length := by omega
      rw [this, houtdef, List.take_left]
    have hdrop : out.drop (L.length - 2 + 1) = R := by
      have h1 : L.length - 2 + 1 = L.length - 1 := by omega
      rw [h1, houtdef, List.drop_append_of_le_length (by omega),
        drop_length_sub_one hLl]
      exact (hRcons).symm
    rw [htake, hdrop]
    have ihL : rdp ε L = L := by rw [hLdef]; exact ih₁
    have ihR : rdp ε R = R := by rw [hRdef]; exact ih₂
    rw [ihL, ihR]
/-- `PathSimplifier.simplify_path`: returns the input unchanged when it has
fewer than 3 points, otherwise applies Douglas-Peucker at tolerance `ε`. -/
def simplify_path (ε : ℚ) (pts : List Q2) : List Q2 :=
  if pts.length < 3 then pts else rdp ε pts

/-- `PathSimplifier.__init__`: the stored tolerance.  `None` selects 2% of the
letter height; an explicit value — also a negative one — is stored unchecked. -/
def pathSimplifierEpsilon (epsilon : Option ℚ) (letter_height_m : ℚ) : ℚ :=
  match epsilon with
  | none => letter_height_m * 0.02
  | some e => e

/-- The exceed-tolerance test is antitone in the tolerance. -/
lemma cond_mono {ε₁ ε₂ m : ℚ} (h : ε₁ ≤ ε₂) (hc : ε₂ < 0 ∨ ε₂ ^ 2 < m) :
    ε₁ < 0 ∨ ε₁ ^ 2 < m := by
  rcases hc with h2 | h2
  · left; linarith
  · by_cases h1 : ε₁ < 0
    · left; exact h1
    · right
      push_neg at h1
      nlinarith

/-- Raising the tolerance refines the output to a sublist. -/
lemma rdp_anti {ε₁ ε₂ : ℚ} (h : ε₁ ≤ ε₂) :
    ∀ pts : List Q2, List.Sublist (rdp ε₂ pts) (rdp ε₁ pts) := by
  intro pts
  induction pts using rdp.induct ε₂ with
  | case1 x hlen =>
    rw [rdp_eq_of_short (ε := ε₂) hlen, rdp_eq_of_short (ε := ε₁) hlen]
  | case2 x hlen a b hfm =>
    rw [rdp_eq_of_none (ε := ε₂) hlen hfm, rdp_eq_of_none (ε := ε₁) hlen hfm]
  | case3 x hlen a b j m hfm hc ih₁ ih₂ =>
    rw [rdp_eq_of_split (ε := ε₂) hlen hfm hc,
      rdp_eq_of_split (ε := ε₁) hlen hfm (cond_mono h hc)]
    exact List.Sublist.append ih₁ ih₂.tail
  | case4 x hlen a b j m hfm hc =>
    rw [rdp_eq_of_collapse (ε := ε₂) hlen hfm hc]
    have hxne : x ≠ [] := by
      intro hx; subst hx; simp at hlen
    obtain ⟨hl2, hlh, hll⟩ := rdp_shape ε₁ x (by omega)
    refine pair_sublist_of_head_last ?_ ?_ hl2
    · rw [hlh, head?_of_ne_nil hxne]
    · rw [hll, getLast?_of_ne_nil hxne]

/-- C6: for every input polyline with at least 2 points and every
`epsilon ≥ 0`, `simplify_path` preserves the first point, preserves the last
point, and never increases the point count. -/
theorem C6_simplify_endpoints_and_count (pts : List Q2) (ε : ℚ)
    (h2 : 2 ≤ pts.length) (_hε : 0 ≤ ε) :
    (simplify_path ε pts).head? = pts.head? ∧
      (simplify_path ε pts).getLast? = pts.getLast? ∧
      (simplify_path ε pts).length ≤ pts.length := by
  unfold simplify_path
  by_cases hlen : pts.length < 3
  · simp [hlen]
  · simp only [hlen, if_false]
    obtain ⟨_, hh, hl⟩ := rdp_shape ε pts h2
    exact ⟨hh, hl, (rdp_sublist ε pts).length_le⟩

theorem C6_simplify_endpoints_and_count_witness :
    2 ≤ ([((0 : ℚ), (0 : ℚ)), (1, 1), (2, 0), (3, 1)] : List Q2).length ∧
      (0 : ℚ) ≤ 1 ∧
      ((simplify_path 1 [((0 : ℚ), (0 : ℚ)), (1, 1), (2, 0), (3, 1)]).head?
          = ([((0 : ℚ), (0 : ℚ)), (1, 1), (2, 0), (3, 1)] : List Q2).head? ∧
        (simplify_path 1 [((0 : ℚ), (0 : ℚ)), (1, 1), (2, 0), (3, 1)]).getLast?
          = ([((0 : ℚ), (0 : ℚ)), (1, 1), (2, 0), (3, 1)] : List Q2).getLast? ∧
        (simplify_path 1 [((0 : ℚ), (0 : ℚ)), (1, 1), (2, 0), (3, 1)]).length
          ≤ ([((0 : ℚ), (0 : ℚ)), (1, 1), (2, 0), (3, 1)] : List Q2).length) :=
  ⟨by decide, by decide,
    C6_simplify_endpoints_and_count [((0 : ℚ), (0 : ℚ)), (1, 1), (2, 0), (3, 1)] 1
      (by decide) (by decide)⟩

/-- C7: `simplify_path` is idempotent — re-simplifying its output at the same
tolerance `ε ≥ 0` returns the same point sequence. -/
theorem C7_simplify_idempotent (pts : List Q2) (ε : ℚ) (_hε : 0 ≤ ε) :
    simplify_path ε (simplify_path ε pts) = simplify_path ε pts := by
  unfold simplify_path
  by_cases hlen : pts.length < 3
  · simp [hlen]
  · simp only [hlen, if_false]
    by_cases hlen2 : (rdp ε pts).length < 3
    · simp [hlen2]
    · simp only [hlen2, if_false]
      exact rdp_idem ε pts

theorem C7_simplify_idempotent_witness :
    (0 : ℚ) ≤ 1 ∧
      simplify_path 1 (simplify_path 1 [((0 : ℚ), (0 : ℚ)), (1, 1), (2, 0), (3, 1)])
        = simplify_path 1 [((0 : ℚ), (0 : ℚ)), (1, 1), (2, 0), (3, 1)] :=
  ⟨by decide,
    C7_simplify_idempotent [((0 : ℚ), (0 : ℚ)), (1, 1), (2, 0), (3, 1)] 1 (by decide)⟩

/-- C8: `simplify_path` is monotone in the tolerance — for `ε₁ ≤ ε₂` the
output at `ε₂` never has more points than the output at `ε₁`. -/
theorem C8_simplify_monotone (pts : List Q2) (ε₁ ε₂ : ℚ) (h : ε₁ ≤ ε₂) :
    (simplify_path ε₂ pts).length ≤ (simplify_path ε₁ pts).length := by
  unfold simplify_path
  by_cases hlen : pts.length < 3
  · simp [hlen]
  · simp only [hlen, if_false]
    exact (rdp_anti h pts).length_le

theorem C8_simplify_monotone_witness :
    (0 : ℚ) ≤ 1 ∧
      (simplify_path 1 [((0 : ℚ), (0 : ℚ)), (1, 1), (2, 0), (3, 1)]).length
        ≤ (simplify_path 0 [((0 : ℚ), (0 : ℚ)), (1, 1), (2, 0), (3, 1)]).length :=
  ⟨by decide,
    C8_simplify_monotone [((0 : ℚ), (0 : ℚ)), (1, 1), (2, 0), (3, 1)] 0 1 (by decide)⟩

/-! ## Transition engine (`path_transitions.py`)

Waypoints are modelled over ℝ; `float('inf')` in the nearest-neighbor scan is
modelled as `none` in an `Option ℝ` running minimum, and the source's
sign-encoded candidate index (`-i - 1` marks a reversed stroke) is kept as an
integer exactly as in the source. -/

abbrev R2 := ℝ × ℝ
abbrev R3 := ℝ × ℝ × ℝ

/-- `PathTransitionHandler._point_distance`. -/
noncomputable def point_distance (p1 p2 : R2) : ℝ :=
  Real.sqrt ((p1.1 - p2.1) ^ 2 + (p1.2 - p2.2) ^ 2)

/-- Loop body of `PathTransitionHandler.add_transitions`: `prev` is the
positionally previous path (`paths[i-1]`), `none` at the first iteration. -/
noncomputable def addTransitionsAux (alt : ℝ) :
    Option (List R2) → List (List R2) → List R3
  | _, [] => []
  | prev, path :: rest =>
    let tailWps := addTransitionsAux alt (some path) rest
    if path = [] then tailWps
    else
      let start_idx : ℕ :=
        match prev with
        | none => 0
        | some prevPath =>
          if prevPath ≠ [] ∧ (prevPath.getLastD (0, 0)).1 = (path.headD (0, 0)).1 ∧
              (prevPath.getLastD (0, 0)).2 = (path.headD (0, 0)).2 then 1 else 0
      ((path.drop start_idx).map (fun p => (p.1, p.2, alt))) ++ tailWps

/-- `PathTransitionHandler.add_transitions`: assemble 2D paths into one 3D
path at the constant write altitude, dropping a leading point that exactly
repeats the previous path's end point. -/
noncomputable def add_transitions (write_altitude : ℝ)
    (paths : List (List R2)) : List R3 :=
  if paths = [] then [] else addTransitionsAux write_altitude none paths

/-- Result of `calculate_mission_time` (the `total_time_formatted` dictionary
entry is presentation-only string formatting and is not modelled). -/
structure MissionEstimate where
  total_time_s : ℝ
  total_distance_m : ℝ

/-- 3D segment length used by `calculate_mission_time`. -/
noncomputable def segment_distance_3d (p q : R3) : ℝ :=
  Real.sqrt ((q.1 - p.1) ^ 2 + (q.2.1 - p.2.1) ^ 2 + (q.2.2 - p.2.2) ^ 2)

/-- Per-segment time of `calculate_mission_time`: triangular profile when the
segment is too short to reach cruise speed, trapezoidal otherwise. -/
noncomputable def segment_time (flight_speed_m_s acceleration_m_s2 dist : ℝ) : ℝ :=
  let t_accel := flight_speed_m_s / acceleration_m_s2
  let d_accel := 0.5 * acceleration_m_s2 * t_accel ^ 2
  let t_decel := t_accel
  let d_decel := d_accel
  if dist ≤ d_accel + d_decel then 2 * Real.sqrt (dist / acceleration_m_s2)
  else
    let d_cruise := dist - d_accel - d_decel
    let t_cruise := d_cruise / flight_speed_m_s
    t_accel + t_cruise + t_decel

/-- `PathTransitionHandler.calculate_mission_time`. -/
noncomputable def calculate_mission_time (waypoints_3d : List R3)
    (flight_speed_m_s acceleration_m_s2 : ℝ) : MissionEstimate :=
  if waypoints_3d.length ≤ 1 then ⟨0, 0⟩
  else
    let pairs := waypoints_3d.zip waypoints_3d.tail
    ⟨(pairs.map (fun pq => segment_time flight_speed_m_s acceleration_m_s2
        (segment_distance_3d pq.1 pq.2))).sum,
      (pairs.map (fun pq => segment_distance_3d pq.1 pq.2)).sum⟩

/-- `path[0]` of a stroke (its start point). -/
def strokeStart (s : List R2) : R2 := s.headD (0, 0)

/-- `path[-1]` of a stroke (its end point). -/
def strokeEnd (s : List R2) : R2 := s.getLastD (0, 0)

/-- One iteration of the scan in `_nearest_neighbor_order`: compare the
candidate's start and end distances against the running minimum
(`none` models the initial `float('inf')`), encoding a reversed pick as the
negative index `-i - 1` exactly as the source does. -/
noncomputable def nnStep (cur : R2) (st : Option ℝ × ℤ) (i : ℕ)
    (path : List R2) : Option ℝ × ℤ :=
  let dist := point_distance cur (strokeStart path)
  let dist_reverse := point_distance cur (strokeEnd path)
  if dist_reverse < dist then
    match st.1 with
    | none => (some dist_reverse, -(i : ℤ) - 1)
    | some m => if dist_reverse < m then (some dist_reverse, -(i : ℤ) - 1) else st
  else
    match st.1 with
    | none => (some dist, (i : ℤ))
    | some m => if dist < m then (some dist, (i : ℤ)) else st

/-- The scan over all remaining strokes, indexed from `i`. -/
noncomputable def scanAux (cur : R2) :
    List (List R2) → ℕ → Option ℝ × ℤ → Option ℝ × ℤ
  | [], _, st => st
  | p :: rest, i, st => scanAux cur rest (i + 1) (nnStep cur st i p)

/-- The selected (sign-encoded) index of the inner scan of
`_nearest_neighbor_order`. -/
noncomputable def scanNearest (cur : R2) (remaining : List (List R2)) : ℤ :=
  (scanAux cur remaining 0 (none, 0)).2

/-- Decode the sign-encoded index: `-i - 1` stands for position `i` reversed. -/
def decodeIdx (k : ℤ) : ℕ := if k < 0 then (-k - 1).toNat else k.toNat

/-- The best (min over both endpoints) distance from `cur` to a stroke. -/
noncomputable def strokeKeyDist (cur : R2) (s : List R2) : ℝ :=
  min (point_distance cur (strokeStart s)) (point_distance cur (strokeEnd s))

lemma decodeIdx_ofNat (i : ℕ) : decodeIdx (i : ℤ) = i := by
  simp [decodeIdx]

lemma decodeIdx_negSucc (i : ℕ) : decodeIdx (-(i : ℤ) - 1) = i := by
  simp only [decodeIdx, if_pos (by omega : -(i : ℤ) - 1 < 0)]
  omega

/-- Invariant of the scan after processing candidates `0 .. i-1`: the state
holds the first-encountered minimal endpoint distance so far, its candidate
index, and whether that candidate is nearer reversed. -/
def ScanInv (cur : R2) (paths : List (List R2)) (i : ℕ)
    (st : Option ℝ × ℤ) : Prop :=
  match st.1 with
  | none => i = 0 ∧ st.2 = 0
  | some m =>
    decodeIdx st.2 < i ∧
    m = strokeKeyDist cur (paths.getD (decodeIdx st.2) []) ∧
    (∀ t < i, m ≤ strokeKeyDist cur (paths.getD t [])) ∧
    (∀ t < decodeIdx st.2, m < strokeKeyDist cur (paths.getD t [])) ∧
    (st.2 < 0 ↔ point_distance cur (strokeEnd (paths.getD (decodeIdx st.2) []))
        < point_distance cur (strokeStart (paths.getD (decodeIdx st.2) [])))

lemma nnStep_inv {cur : R2} {paths : List (List R2)} {i : ℕ}
    {st : Option ℝ × ℤ} (hinv : ScanInv cur paths i st) (hi : i < paths.length) :
    ScanInv cur paths (i + 1) (nnStep cur st i (paths.getD i [])) := by
  obtain ⟨mo, k⟩ := st
  have hkey : strokeKeyDist cur (paths.getD i [])
      = min (point_distance cur (strokeStart (paths.getD i [])))
          (point_distance cur (strokeEnd (paths.getD i []))) := rfl
  by_cases hrev : point_distance cur (strokeEnd (paths.getD i []))
      < point_distance cur (strokeStart (paths.getD i []))
  · have hkeyr : strokeKeyDist cur (paths.getD i [])
        = point_distance cur (strokeEnd (paths.getD i [])) := by
      rw [hkey]; exact min_eq_right (le_of_lt hrev)
    cases mo with
    | none =>
      simp only [ScanInv] at hinv
      obtain ⟨rfl, rfl⟩ := hinv
      simp only [nnStep, hrev, if_pos]
      simp only [ScanInv, decodeIdx_negSucc]
      refine ⟨by omega, by rw [hkeyr], ?_, by omega, ?_⟩
      · intro t ht
        have ht0 : t = 0 := by omega
        subst ht0
        rw [hkeyr]
      · constructor
        · intro _; exact hrev
        · intro _; omega
    | some m =>
      simp only [ScanInv] at hinv
      obtain ⟨hdec, hval, hle, hstrict, hsign⟩ := hinv
      by_cases hupd : point_distance cur (strokeEnd (paths.getD i [])) < m
      · simp only [nnStep, hrev, if_pos, hupd]
        simp only [ScanInv, decodeIdx_negSucc]
        refine ⟨by omega, by rw [hkeyr], ?_, ?_, ?_⟩
        · intro t ht
          rcases Nat.lt_succ_iff_lt_or_eq.mp ht with ht | rfl
          · exact le_of_lt (lt_of_lt_of_le hupd (hle t ht))
          · rw [hkeyr]
        · intro t ht
          exact lt_of_lt_of_le hupd (hle t (by omega))
        · constructor
          · intro _; exact hrev
          · intro _; omega
      · simp only [nnStep, hrev, if_pos, hupd, if_neg, if_false]
        simp only [ScanInv]
        refine ⟨by omega, hval, ?_, hstrict, hsign⟩
        intro t ht
        rcases Nat.lt_succ_iff_lt_or_eq.mp ht with ht | rfl
        · exact hle t ht
        · rw [hkeyr]
          exact le_of_not_lt hupd
  · have hkeyl : strokeKeyDist cur (paths.getD i [])
        = point_distance cur (strokeStart (paths.getD i [])) := by
      rw [hkey]; exact min_eq_left (le_of_not_lt hrev)
    cases mo with
    | none =>
      simp only [ScanInv] at hinv
      obtain ⟨rfl, rfl⟩ := hinv
      simp only [nnStep, hrev, if_neg, if_false]
      simp only [ScanInv, decodeIdx_ofNat]
      refine ⟨by omega, by rw [hkeyl], ?_, by omega, ?_⟩
      · intro t ht
        have ht0 : t = 0 := by omega
        subst ht0
        rw [hkeyl]
      · constructor
        · intro h; omega
        · intro h; exact absurd h hrev
    | some m =>
      simp only [ScanInv] at hinv
      obtain ⟨hdec, hval, hle, hstrict, hsign⟩ := hinv
      by_cases hupd : point_distance cur (strokeStart (paths.getD i [])) < m
      · simp only [nnStep, hrev, if_neg, if_false, hupd, if_pos]
        simp only [ScanInv, decodeIdx_ofNat]
        refine ⟨by omega, by rw [hkeyl], ?_, ?_, ?_⟩
        · intro t ht
          rcases Nat.lt_succ_iff_lt_or_eq.mp ht with ht | rfl
          · exact le_of_lt (lt_of_lt_of_le hupd (hle t ht))
          · rw [hkeyl]
        · intro t ht
          exact lt_of_lt_of_le hupd (hle t (by omega))
        · constructor
          · intro h; omega
          · intro h; exact absurd h hrev
      · simp only [nnStep, hrev, if_neg, if_false, hupd]
        simp only [ScanInv]
        refine ⟨by omega, hval, ?_, hstrict, hsign⟩
        intro t ht
        rcases Nat.lt_succ_iff_lt_or_eq.mp ht with ht | rfl
        · exact hle t ht
        · rw [hkeyl]
          exact le_of_not_lt hupd

lemma scanAux_inv (cur : R2) (paths : List (List R2)) :
    ∀ (l : List (List R2)) (i : ℕ) (st : Option ℝ × ℤ),
      ScanInv cur paths i st → l = paths.drop i → i ≤ paths.length →
      ScanInv cur paths paths.length (scanAux cur l i st) := by
  intro l
  induction l with
  | nil =>
    intro i st hinv hdrop hile
    have hge : paths.length ≤ i := by
      by_contra h
      push_neg at h
      have := List.drop_eq_nil_iff.mp hdrop.symm
      omega
    have : i = paths.length := by omega
    subst this
    simpa [scanAux] using hinv
  | cons p rest ih =>
    intro i st hinv hdrop hile
    have hi : i < paths.length := by
      by_contra h
      push_neg at h
      rw [List.drop_eq_nil_iff.mpr (by omega)] at hdrop
      cases hdrop
    have hp : p = paths.getD i [] := by
      have h1 := List.head?_drop paths i
      rw [← hdrop] at h1
      simp only [List.head?_cons] at h1
      rw [List.getD_eq_getElem?_getD, ← h1]
      rfl
    have hrest : rest = paths.drop (i + 1) := by
      have h2 := List.tail_drop paths i
      rw [← hdrop] at h2
      simpa using h2
    simp only [scanAux]
    exact ih (i + 1) _ (hp ▸ nnStep_inv hinv hi) hrest (by omega)

/-- Full correctness of the inner scan of `_nearest_neighbor_order`: it
selects the first remaining stroke whose nearest endpoint is globally
closest, marking reversal exactly when the end point is strictly nearer. -/
lemma scanNearest_final (cur : R2) (paths : List (List R2)) (hne : paths ≠ []) :
    decodeIdx (scanNearest cur paths) < paths.length ∧
      (∀ t < paths.length,
        strokeKeyDist cur (paths.getD (decodeIdx (scanNearest cur paths)) [])
          ≤ strokeKeyDist cur (paths.getD t [])) ∧
      (∀ t < decodeIdx (scanNearest cur paths),
        strokeKeyDist cur (paths.getD (decodeIdx (scanNearest cur paths)) [])
          < strokeKeyDist cur (paths.getD t [])) ∧
      (scanNearest cur paths < 0 ↔
        point_distance cur
            (strokeEnd (paths.getD (decodeIdx (scanNearest cur paths)) []))
          < point_distance cur
              (strokeStart (paths.getD (decodeIdx (scanNearest cur paths)) []))) := by
  have hinv := scanAux_inv cur paths paths 0 (none, 0)
    (by simp [ScanInv]) (by simp) (by omega)
  rcases hst : scanAux cur paths 0 (none, 0) with ⟨mo, k⟩
  rw [hst] at hinv
  have hsn : scanNearest cur paths = k := by
    rw [scanNearest, hst]
  cases mo with
  | none =>
    simp only [ScanInv] at hinv
    have : paths = [] := List.length_eq_zero.mp (by omega : paths.length = 0)
    exact absurd this hne
  | some m =>
    simp only [ScanInv] at hinv
    obtain ⟨hdec, hval, hle, hstrict, hsign⟩ := hinv
    rw [hsn]
    refine ⟨hdec, ?_, ?_, hsign⟩
    · intro t ht
      rw [← hval]
      exact hle t ht
    · intro t ht
      rw [← hval]
      exact hstrict t ht

lemma scanNearest_decode_lt (cur : R2) {paths : List (List R2)}
    (hne : paths ≠ []) : decodeIdx (scanNearest cur paths) < paths.length :=
  (scanNearest_final cur paths hne).1

/-- The selection loop of `_nearest_neighbor_order`: repeatedly pick the
scan winner, reversing it when the sign-encoded index is negative, remove it
from the remaining list, and continue from the chosen stroke's end point. -/
noncomputable def nnLoop (cur : R2) (remaining : List (List R2)) :
    List (List R2) :=
  match remaining with
  | [] => []
  | r :: rest =>
    let k := scanNearest cur (r :: rest)
    let j := decodeIdx k
    let base := (r :: rest).getD j []
    let chosen := if k < 0 then base.reverse else base
    chosen :: nnLoop (strokeEnd chosen) ((r :: rest).eraseIdx j)
termination_by remaining.length
decreasing_by
  have hj : decodeIdx (scanNearest cur (r :: rest)) < (r :: rest).length :=
    scanNearest_decode_lt cur (List.cons_ne_nil r rest)
  rw [List.length_eraseIdx_of_lt hj]
  simp only [List.length_cons]
  omega

/-- `PathTransitionHandler._nearest_neighbor_order`: seed with the first
stroke, then run the selection loop from its end point. -/
noncomputable def nearest_neighbor_order (paths : List (List R2)) :
    List (List R2) :=
  match paths with
  | [] => []
  | p :: rest => p :: nnLoop (strokeEnd p) rest

/-- `PathTransitionHandler.optimize_stroke_order`. -/
noncomputable def optimize_stroke_order (paths : List (List R2))
    (method : String) : List (List R2) :=
  if method = "original" ∨ paths.length ≤ 1 then paths
  else if method = "nearest_neighbor" then nearest_neighbor_order paths
  else paths

/-- Orientation-free identity of a stroke: the unordered pair of the stroke
and its reversal.  `strokeKey s = strokeKey t` holds exactly when `t` is `s`
or `s` reversed. -/
def strokeKey (s : List R2) : Multiset (List R2) := {s, s.reverse}

lemma strokeKey_reverse (s : List R2) : strokeKey s.reverse = strokeKey s := by
  simp only [strokeKey, List.reverse_reverse, Multiset.insert_eq_cons]
  exact Multiset.cons_swap _ _ _

lemma perm_getD_cons_eraseIdx {l : List (List R2)} {j : ℕ} (hj : j < l.length) :
    l.Perm (l.getD j [] :: l.eraseIdx j) := by
  rw [List.eraseIdx_eq_take_drop_succ, List.getD_eq_getElem?_getD,
    List.getElem?_eq_getElem hj, Option.getD_some]
  conv_lhs => rw [← List.take_append_drop j l, List.drop_eq_getElem_cons hj]
  exact List.perm_middle

lemma nnLoop_cons (cur : R2) (r : List R2) (rest : List (List R2)) :
    nnLoop cur (r :: rest) =
      (if scanNearest cur (r :: rest) < 0
        then ((r :: rest).getD (decodeIdx (scanNearest cur (r :: rest))) []).reverse
        else (r :: rest).getD (decodeIdx (scanNearest cur (r :: rest))) []) ::
      nnLoop
        (strokeEnd (if scanNearest cur (r :: rest) < 0
          then ((r :: rest).getD (decodeIdx (scanNearest cur (r :: rest))) []).reverse
          else (r :: rest).getD (decodeIdx (scanNearest cur (r :: rest))) []))
        ((r :: rest).eraseIdx (decodeIdx (scanNearest cur (r :: rest)))) := by
  rw [nnLoop]

lemma nnLoop_perm_bounded :
    ∀ (n : ℕ) (cur : R2) (remaining : List (List R2)), remaining.length ≤ n →
      ((nnLoop cur remaining).map strokeKey).Perm (remaining.map strokeKey) ∧
      ∀ s ∈ nnLoop cur remaining, s ∈ remaining ∨ s.reverse ∈ remaining := by
  intro n
  induction n with
  | zero =>
    intro cur remaining hlen
    have : remaining = [] := List.length_eq_zero.mp (by omega)
    subst this
    simp [nnLoop]
  | succ n ih =>
    intro cur remaining hlen
    cases remaining with
    | nil => simp [nnLoop]
    | cons r rest =>
      have hne : (r :: rest) ≠ [] := List.cons_ne_nil r rest
      have hj := scanNearest_decode_lt cur hne
      rw [nnLoop_cons]
      set k := scanNearest cur (r :: rest) with hk
      set j := decodeIdx k with hjdef
      set base := (r :: rest).getD j [] with hbase
      set chosen := if k < 0 then base.reverse else base with hchosen
      have hbase_mem : base ∈ r :: rest := by
        rw [hbase, List.getD_eq_getElem?_getD, List.getElem?_eq_getElem hj,
          Option.getD_some]
        exact List.getElem_mem hj
      have hkeyeq : strokeKey chosen = strokeKey base := by
        rw [hchosen]
        by_cases hneg : k < 0
        · rw [if_pos hneg, strokeKey_reverse]
        · rw [if_neg hneg]
      have herase_len : ((r :: rest).eraseIdx j).length ≤ n := by
        rw [List.length_eraseIdx_of_lt hj]
        simp only [List.length_cons] at hlen ⊢
        omega
      obtain ⟨ihp, ihm⟩ := ih (strokeEnd chosen) ((r :: rest).eraseIdx j) herase_len
      constructor
      · simp only [List.map_cons]
        have h2 := (perm_getD_cons_eraseIdx hj).map strokeKey
        simp only [List.map_cons] at h2
        rw [hkeyeq]
        exact (ihp.cons (strokeKey base)).trans h2.symm
      · intro s hs
        rcases List.mem_cons.mp hs with rfl | hs
        · rw [hchosen]
          by_cases hneg : k < 0
          · right
            rw [if_pos hneg, List.reverse_reverse]
            exact hbase_mem
          · left
            rw [if_neg hneg]
            exact hbase_mem
        · rcases ihm s hs with h | h
          · exact Or.inl ((List.eraseIdx_sublist _ _).subset h)
          · exact Or.inr ((List.eraseIdx_sublist _ _).subset h)

/-- C10: nearest-neighbor ordering returns a permutation of the input strokes
in which each stroke appears exactly once, either as-is or reversed, and
nothing else. -/
theorem C10_order_permutation_up_to_reversal (paths : List (List R2)) :
    ((optimize_stroke_order paths "nearest_neighbor").map strokeKey).Perm
        (paths.map strokeKey) ∧
      ∀ s ∈ optimize_stroke_order paths "nearest_neighbor",
        s ∈ paths ∨ s.reverse ∈ paths := by
  unfold optimize_stroke_order
  by_cases h1 : ("nearest_neighbor" : String) = "original" ∨ paths.length ≤ 1
  · rw [if_pos h1]
    exact ⟨List.Perm.refl _, fun s hs => Or.inl hs⟩
  · rw [if_neg h1, if_pos rfl]
    cases paths with
    | nil => simp [nearest_neighbor_order]
    | cons p rest =>
      simp only [nearest_neighbor_order, List.map_cons]
      obtain ⟨hp, hm⟩ := nnLoop_perm_bounded rest.length (strokeEnd p) rest le_rfl
      refine ⟨hp.cons _, ?_⟩
      intro s hs
      rcases List.mem_cons.mp hs with rfl | hs
      · exact Or.inl (List.mem_cons_self _ _)
      · rcases hm s hs with h | h
        · exact Or.inl (List.mem_cons_of_mem _ h)
        · exact Or.inr (List.mem_cons_of_mem _ h)

/-- C5: for a non-empty remaining set of non-empty strokes the nearest
neighbor step selects the stroke whose nearest endpoint (start or end) is
globally closest to the current end point, first-encountered stroke winning
distance ties, reversing exactly when the end point is strictly nearer; the
ordering itself seeds with the first stroke and appends the selected stroke
(reversed when marked) before recursing from its end point. -/
theorem C5_nearest_neighbor_selection (cur : R2) (paths : List (List R2))
    (hne : paths ≠ []) (_hstrokes : ∀ s ∈ paths, s ≠ []) :
    decodeIdx (scanNearest cur paths) < paths.length ∧
      (∀ t < paths.length,
        strokeKeyDist cur (paths.getD (decodeIdx (scanNearest cur paths)) [])
          ≤ strokeKeyDist cur (paths.getD t [])) ∧
      (∀ t < decodeIdx (scanNearest cur paths),
        strokeKeyDist cur (paths.getD (decodeIdx (scanNearest cur paths)) [])
          < strokeKeyDist cur (paths.getD t [])) ∧
      (scanNearest cur paths < 0 ↔
        point_distance cur
            (strokeEnd (paths.getD (decodeIdx (scanNearest cur paths)) []))
          < point_distance cur
              (strokeStart (paths.getD (decodeIdx (scanNearest cur paths)) []))) ∧
      nnLoop cur paths =
        (if scanNearest cur paths < 0
          then (paths.getD (decodeIdx (scanNearest cur paths)) []).reverse
          else paths.getD (decodeIdx (scanNearest cur paths)) []) ::
        nnLoop
          (strokeEnd (if scanNearest cur paths < 0
            then (paths.getD (decodeIdx (scanNearest cur paths)) []).reverse
            else paths.getD (decodeIdx (scanNearest cur paths)) []))
          (paths.eraseIdx (decodeIdx (scanNearest cur paths))) ∧
      (∀ p rest, paths = p :: rest →
        nearest_neighbor_order paths = p :: nnLoop (strokeEnd p) rest) := by
  obtain ⟨hlt, hmin, hfirst, hsign⟩ := scanNearest_final cur paths hne
  refine ⟨hlt, hmin, hfirst, hsign, ?_, ?_⟩
  · obtain ⟨r, rest, rfl⟩ := List.exists_cons_of_ne_nil hne
    exact nnLoop_cons cur r rest
  · intro p rest hp
    subst hp
    rfl

theorem C5_nearest_neighbor_selection_witness :
    ([[((3 : ℝ), (4 : ℝ))], [(0, 1)]] : List (List R2)) ≠ [] ∧
      (∀ s ∈ ([[((3 : ℝ), (4 : ℝ))], [(0, 1)]] : List (List R2)), s ≠ []) ∧
      (decodeIdx (scanNearest (0, 0) [[((3 : ℝ), (4 : ℝ))], [(0, 1)]])
          < ([[((3 : ℝ), (4 : ℝ))], [(0, 1)]] : List (List R2)).length ∧
        (∀ t < ([[((3 : ℝ), (4 : ℝ))], [(0, 1)]] : List (List R2)).length,
          strokeKeyDist (0, 0)
              (([[((3 : ℝ), (4 : ℝ))], [(0, 1)]] : List (List R2)).getD
                (decodeIdx (scanNearest (0, 0) [[((3 : ℝ), (4 : ℝ))], [(0, 1)]])) [])
            ≤ strokeKeyDist (0, 0)
              (([[((3 : ℝ), (4 : ℝ))], [(0, 1)]] : List (List R2)).getD t [])) ∧
        (∀ t < decodeIdx (scanNearest (0, 0) [[((3 : ℝ), (4 : ℝ))], [(0, 1)]]),
          strokeKeyDist (0, 0)
              (([[((3 : ℝ), (4 : ℝ))], [(0, 1)]] : List (List R2)).getD
                (decodeIdx (scanNearest (0, 0) [[((3 : ℝ), (4 : ℝ))], [(0, 1)]])) [])
            < strokeKeyDist (0, 0)
              (([[((3 : ℝ), (4 : ℝ))], [(0, 1)]] : List (List R2)).getD t [])) ∧
        (scanNearest (0, 0) [[((3 : ℝ), (4 : ℝ))], [(0, 1)]] < 0 ↔
          point_distance (0, 0)
              (strokeEnd (([[((3 : ℝ), (4 : ℝ))], [(0, 1)]] : List (List R2)).getD
                (decodeIdx (scanNearest (0, 0) [[((3 : ℝ), (4 : ℝ))], [(0, 1)]])) []))
            < point_distance (0, 0)
              (strokeStart (([[((3 : ℝ), (4 : ℝ))], [(0, 1)]] : List (List R2)).getD
                (decodeIdx (scanNearest (0, 0) [[((3 : ℝ), (4 : ℝ))], [(0, 1)]])) []))) ∧
        nnLoop (0, 0) [[((3 : ℝ), (4 : ℝ))], [(0, 1)]] =
          (if scanNearest (0, 0) [[((3 : ℝ), (4 : ℝ))], [(0, 1)]] < 0
            then (([[((3 : ℝ), (4 : ℝ))], [(0, 1)]] : List (List R2)).getD
              (decodeIdx (scanNearest (0, 0) [[((3 : ℝ), (4 : ℝ))], [(0, 1)]])) []).reverse
            else ([[((3 : ℝ), (4 : ℝ))], [(0, 1)]] : List (List R2)).getD
              (decodeIdx (scanNearest (0, 0) [[((3 : ℝ), (4 : ℝ))], [(0, 1)]])) []) ::
          nnLoop
            (strokeEnd (if scanNearest (0, 0) [[((3 : ℝ), (4 : ℝ))], [(0, 1)]] < 0
              then (([[((3 : ℝ), (4 : ℝ))], [(0, 1)]] : List (List R2)).getD
                (decodeIdx (scanNearest (0, 0) [[((3 : ℝ), (4 : ℝ))], [(0, 1)]])) []).reverse
              else ([[((3 : ℝ), (4 : ℝ))], [(0, 1)]] : List (List R2)).getD
                (decodeIdx (scanNearest (0, 0) [[((3 : ℝ), (4 : ℝ))], [(0, 1)]])) []))
            (([[((3 : ℝ), (4 : ℝ))], [(0, 1)]] : List (List R2)).eraseIdx
              (decodeIdx (scanNearest (0, 0) [[((3 : ℝ), (4 : ℝ))], [(0, 1)]]))) ∧
        (∀ p rest, ([[((3 : ℝ), (4 : ℝ))], [(0, 1)]] : List (List R2)) = p :: rest →
          nearest_neighbor_order [[((3 : ℝ), (4 : ℝ))], [(0, 1)]]
            = p :: nnLoop (strokeEnd p) rest)) :=
  ⟨by simp, by intro s hs; rcases List.mem_cons.mp hs with rfl | hs <;> simp_all,
    C5_nearest_neighbor_selection (0, 0) [[((3 : ℝ), (4 : ℝ))], [(0, 1)]]
      (by simp)
      (by intro s hs; rcases List.mem_cons.mp hs with rfl | hs <;> simp_all)⟩

/-- C4: a single segment of length exactly `d_accel + d_decel = v²/a` is
timed by the triangular branch as `2*(v/a)`, agreeing with the trapezoidal
branch at the regime boundary (here proven exactly, hence within 1e-6 s). -/
theorem C4_kinematic_boundary (p q : R3) (v a : ℝ) (hv : 0 < v) (ha : 0 < a)
    (hd : segment_distance_3d p q = v ^ 2 / a) :
    (calculate_mission_time [p, q] v a).total_time_s = 2 * (v / a) := by
  have ha' : a ≠ 0 := ne_of_gt ha
  unfold calculate_mission_time
  rw [if_neg (by simp)]
  simp only [List.tail_cons, List.zip_cons_cons, List.zip_nil_right,
    List.map_cons, List.map_nil, List.sum_cons, List.sum_nil]
  rw [hd]
  simp only [segment_time]
  have hcond : v ^ 2 / a ≤ 0.5 * a * (v / a) ^ 2 + 0.5 * a * (v / a) ^ 2 := by
    have heq : (0.5 : ℝ) * a * (v / a) ^ 2 + 0.5 * a * (v / a) ^ 2 = v ^ 2 / a := by
      field_simp
      ring
    rw [heq]
  rw [if_pos hcond]
  have harg : v ^ 2 / a / a = (v / a) ^ 2 := by
    field_simp
    ring
  rw [harg, Real.sqrt_sq (by positivity)]
  ring

theorem C4_kinematic_boundary_witness :
    (0 : ℝ) < 3 ∧ (0 : ℝ) < 3 ∧
      segment_distance_3d ((0 : ℝ), (0 : ℝ), (0 : ℝ)) (3, 0, 0) = 3 ^ 2 / 3 ∧
      (calculate_mission_time [((0 : ℝ), (0 : ℝ), (0 : ℝ)), (3, 0, 0)] 3 3).total_time_s
        = 2 * (3 / 3) := by
  have hd : segment_distance_3d ((0 : ℝ), (0 : ℝ), (0 : ℝ)) (3, 0, 0) = 3 ^ 2 / 3 := by
    unfold segment_distance_3d
    norm_num
    rw [show (9 : ℝ) = 3 ^ 2 by norm_num, Real.sqrt_sq (by norm_num)]
  exact ⟨by norm_num, by norm_num, hd,
    C4_kinematic_boundary ((0 : ℝ), (0 : ℝ), (0 : ℝ)) (3, 0, 0) 3 3
      (by norm_num) (by norm_num) hd⟩

/-- C3: the code performs no validation of numeric configuration.  A negative
`epsilon` is stored unchanged by `PathSimplifier.__init__`, and
`calculate_mission_time` with a negative acceleration returns an ordinary
result dictionary — here a negative total time — instead of raising any
error (no `ConfigurationError` exists anywhere in the codebase). -/
theorem C3_no_validation_evaluates :
    pathSimplifierEpsilon (some (-1)) 20 = -1 ∧
      (calculate_mission_time [((0 : ℝ), (0 : ℝ), (0 : ℝ)), (1, 0, 0)] 3
          (-3)).total_time_s = -(2 / 3) ∧
      (calculate_mission_time [((0 : ℝ), (0 : ℝ), (0 : ℝ)), (1, 0, 0)] 3
          (-3)).total_time_s < 0 := by
  have hdist : segment_distance_3d ((0 : ℝ), (0 : ℝ), (0 : ℝ)) (1, 0, 0) = 1 := by
    unfold segment_distance_3d
    norm_num
  have heval : (calculate_mission_time [((0 : ℝ), (0 : ℝ), (0 : ℝ)), (1, 0, 0)] 3
      (-3)).total_time_s = -(2 / 3) := by
    unfold calculate_mission_time
    rw [if_neg (by simp)]
    simp only [List.tail_cons, List.zip_cons_cons, List.zip_nil_right,
      List.map_cons, List.map_nil, List.sum_cons, List.sum_nil]
    rw [hdist]
    simp only [segment_time]
    rw [if_neg (by norm_num)]
    norm_num
  exact ⟨rfl, heval, by rw [heval]; norm_num⟩

/-- The three test strokes of the spec scenario (§8) and of the module's own
`__main__` block. -/
noncomputable def demoStrokes : List (List R2) :=
  [[(0, 0), (10, 0), (10, 10)], [(20, 0), (20, 10), (30, 10)], [(40, 0), (40, 10)]]

lemma sqrt_100 : Real.sqrt 100 = 10 := by
  rw [show (100 : ℝ) = 10 ^ 2 by norm_num, Real.sqrt_sq (by norm_num)]

lemma sqrt_200 : Real.sqrt 200 = 10 * Real.sqrt 2 := by
  rw [show (200 : ℝ) = 10 ^ 2 * 2 by norm_num,
    Real.sqrt_mul (by positivity), Real.sqrt_sq (by norm_num)]

lemma demo_waypoints :
    add_transitions 30 demoStrokes =
      [(0, 0, 30), (10, 0, 30), (10, 10, 30), (20, 0, 30), (20, 10, 30),
        (30, 10, 30), (40, 0, 30), (40, 10, 30)] := by
  unfold add_transitions demoStrokes
  rw [if_neg (by simp)]
  simp only [addTransitionsAux]
  norm_num
  simp

lemma demo_distance :
    (calculate_mission_time (add_transitions 30 demoStrokes) 3 3).total_distance_m
      = 50 + 20 * Real.sqrt 2 := by
  rw [demo_waypoints]
  unfold calculate_mission_time
  rw [if_neg (by norm_num)]
  simp only [List.tail_cons, List.zip_cons_cons, List.zip_nil_right,
    List.map_cons, List.map_nil, List.sum_cons, List.sum_nil]
  unfold segment_distance_3d
  norm_num
  rw [sqrt_100, sqrt_200]
  ring

lemma demo_time :
    (calculate_mission_time (add_transitions 30 demoStrokes) 3 3).total_time_s
      = (71 + 20 * Real.sqrt 2) / 3 := by
  have hs2 : (1 : ℝ) ≤ Real.sqrt 2 := by
    rw [show (1 : ℝ) = Real.sqrt 1 by simp]
    exact Real.sqrt_le_sqrt (by norm_num)
  rw [demo_waypoints]
  unfold calculate_mission_time
  rw [if_neg (by norm_num)]
  simp only [List.tail_cons, List.zip_cons_cons, List.zip_nil_right,
    List.map_cons, List.map_nil, List.sum_cons, List.sum_nil]
  unfold segment_distance_3d
  norm_num
  rw [sqrt_100, sqrt_200]
  simp only [segment_time]
  rw [if_neg (by norm_num), if_neg (by nlinarith)]
  ring

/-- C1 (counterexample): on the spec scenario input the assembled path's
total distance is `50 + 20*√2 ≈ 78.28 m`, which differs from the claimed
"approximately 61.2 m" by more than 16 m. -/
theorem C1_counterexample_distance :
    (calculate_mission_time (add_transitions 30 demoStrokes) 3 3).total_distance_m
        = 50 + 20 * Real.sqrt 2 ∧
      16 < |(calculate_mission_time (add_transitions 30 demoStrokes) 3
          3).total_distance_m - 61.2| := by
  refine ⟨demo_distance, ?_⟩
  rw [demo_distance]
  have hsq : Real.sqrt 2 ^ 2 = 2 := Real.sq_sqrt (by norm_num)
  have h136 : (1.36 : ℝ) < Real.sqrt 2 := by
    nlinarith [Real.sqrt_nonneg 2]
  have hpos : (16 : ℝ) < 50 + 20 * Real.sqrt 2 - 61.2 := by nlinarith
  calc (16 : ℝ) < 50 + 20 * Real.sqrt 2 - 61.2 := hpos
    _ ≤ |50 + 20 * Real.sqrt 2 - 61.2| := le_abs_self _

/-- C1 (amended): the assembled 3D path for the scenario strokes at write
altitude 30 has exactly 8 waypoints, all at `z = 30`; `calculate_mission_time`
at cruise speed 3 and acceleration 3 returns total distance
`50 + 20*√2 ≈ 78.28 m` (not 61.2 m) and a strictly positive total time. -/
theorem C1_scenario_amended :
    (add_transitions 30 demoStrokes).length = 8 ∧
      (∀ w ∈ add_transitions 30 demoStrokes, w.2.2 = 30) ∧
      (calculate_mission_time (add_transitions 30 demoStrokes) 3
          3).total_distance_m = 50 + 20 * Real.sqrt 2 ∧
      78.2 < (calculate_mission_time (add_transitions 30 demoStrokes) 3
          3).total_distance_m ∧
      (calculate_mission_time (add_transitions 30 demoStrokes) 3
          3).total_distance_m < 78.3 ∧
      0 < (calculate_mission_time (add_transitions 30 demoStrokes) 3
          3).total_time_s := by
  have hsq : Real.sqrt 2 ^ 2 = 2 := Real.sq_sqrt (by norm_num)
  have hs0 : (0 : ℝ) ≤ Real.sqrt 2 := Real.sqrt_nonneg 2
  refine ⟨?_, ?_, demo_distance, ?_, ?_, ?_⟩
  · rw [demo_waypoints]
    rfl
  · intro w hw
    rw [demo_waypoints] at hw
    simp only [List.mem_cons, List.not_mem_nil, or_false] at hw
    rcases hw with rfl | rfl | rfl | rfl | rfl | rfl | rfl | rfl <;> rfl
  · rw [demo_distance]
    nlinarith
  · rw [demo_distance]
    nlinarith
  · rw [demo_time]
    positivity

/-! ## Corner detection (`PathSimplifier._detect_corners`) -/

/-- `v1_norm` at interior point `i`: length of the reversed incoming vector
`p1 - p2`. -/
noncomputable def corner_v1_norm (pts : List R2) (i : ℕ) : ℝ :=
  Real.sqrt (((pts.getD (i - 1) (0, 0)).1 - (pts.getD i (0, 0)).1) ^ 2 +
    ((pts.getD (i - 1) (0, 0)).2 - (pts.getD i (0, 0)).2) ^ 2)

/-- `v2_norm` at interior point `i`: length of the outgoing vector `p3 - p2`. -/
noncomputable def corner_v2_norm (pts : List R2) (i : ℕ) : ℝ :=
  Real.sqrt (((pts.getD (i + 1) (0, 0)).1 - (pts.getD i (0, 0)).1) ^ 2 +
    ((pts.getD (i + 1) (0, 0)).2 - (pts.getD i (0, 0)).2) ^ 2)

/-- The angle (degrees) computed by `_detect_corners` at interior point `i`:
`arccos` of the clipped normalized dot product of `v1 = p1 - p2` and
`v2 = p3 - p2`, converted from radians via `np.degrees`. -/
noncomputable def corner_angle_deg (pts : List R2) (i : ℕ) : ℝ :=
  let p1 := pts.getD (i - 1) (0, 0)
  let p2 := pts.getD i (0, 0)
  let p3 := pts.getD (i + 1) (0, 0)
  let dot := (p1.1 - p2.1) * (p3.1 - p2.1) + (p1.2 - p2.2) * (p3.2 - p2.2)
  let cos_angle := dot / (corner_v1_norm pts i * corner_v2_norm pts i)
  Real.arccos (max (-1) (min 1 cos_angle)) * (180 / Real.pi)

open Classical in
/-- `PathSimplifier._detect_corners`: iterate `i = 1 .. n-2`, skip points with
a zero-length adjacent segment, and report `i` when the computed angle
exceeds the threshold. -/
noncomputable def detect_corners (pts : List R2) (angle_threshold : ℝ) :
    List ℕ :=
  (List.range' 1 (pts.length - 2)).filter fun i =>
    decide (corner_v1_norm pts i ≠ 0 ∧ corner_v2_norm pts i ≠ 0 ∧
      corner_angle_deg pts i > angle_threshold)

/-- Modelled from the claim's words: the turn angle at `i` — the deviation
from going straight.  The angle between the reversed incoming vector and the
outgoing vector is `180°` minus this deviation (a collinear continuation has
deviation `0°` but vector angle `180°`). -/
noncomputable def turn_angle_deg (pts : List R2) (i : ℕ) : ℝ :=
  180 - corner_angle_deg pts i

lemma straight_corner_angle :
    corner_angle_deg [((0 : ℝ), (0 : ℝ)), (1, 0), (2, 0)] 1 = 180 := by
  unfold corner_angle_deg corner_v1_norm corner_v2_norm
  norm_num
  field_simp

lemma straight_corner_detected :
    (1 : ℕ) ∈ detect_corners [((0 : ℝ), (0 : ℝ)), (1, 0), (2, 0)] 30 := by
  unfold detect_corners
  rw [List.mem_filter]
  refine ⟨by simp [List.range'], ?_⟩
  rw [decide_eq_true_eq]
  refine ⟨?_, ?_, ?_⟩
  · unfold corner_v1_norm
    norm_num
  · unfold corner_v2_norm
    norm_num
  · rw [straight_corner_angle]
    norm_num

/-- C2 (counterexample): on the collinear polyline `[(0,0),(1,0),(2,0)]` with
threshold `30°`, the code reports interior point 1 as a corner even though
its turn angle (deviation from going straight) is `0°`, refuting the claimed
equivalence. -/
theorem C2_counterexample_straight_line :
    ¬ (∀ i : ℕ, 1 ≤ i → i + 1 < ([((0 : ℝ), (0 : ℝ)), (1, 0), (2, 0)] : List R2).length →
      (i ∈ detect_corners [((0 : ℝ), (0 : ℝ)), (1, 0), (2, 0)] 30 ↔
        corner_v1_norm [((0 : ℝ), (0 : ℝ)), (1, 0), (2, 0)] i ≠ 0 ∧
        corner_v2_norm [((0 : ℝ), (0 : ℝ)), (1, 0), (2, 0)] i ≠ 0 ∧
        turn_angle_deg [((0 : ℝ), (0 : ℝ)), (1, 0), (2, 0)] i > 30)) := by
  intro h
  have h1 := (h 1 le_rfl (by norm_num)).mp straight_corner_detected
  have hturn : turn_angle_deg [((0 : ℝ), (0 : ℝ)), (1, 0), (2, 0)] 1 = 0 := by
    unfold turn_angle_deg
    rw [straight_corner_angle]
    norm_num
  rw [hturn] at h1
  exact absurd h1.2.2 (by norm_num)

/-- C2 (amended): an interior point `i` (with `1 ≤ i` and `i+1 < n`) is
reported as a corner by `_detect_corners` iff both adjacent segments have
nonzero length and the angle between the reversed incoming vector and the
outgoing vector — which is `180°` minus the turn angle, not the turn angle
itself — exceeds the threshold; degenerate points are never reported. -/
theorem C2_corner_membership (pts : List R2) (θ : ℝ) (i : ℕ)
    (h1 : 1 ≤ i) (h2 : i + 1 < pts.length) :
    i ∈ detect_corners pts θ ↔
      (corner_v1_norm pts i ≠ 0 ∧ corner_v2_norm pts i ≠ 0 ∧
        corner_angle_deg pts i > θ) := by
  unfold detect_corners
  rw [List.mem_filter, decide_eq_true_eq]
  have hr : i ∈ List.range' 1 (pts.length - 2) := by
    rw [List.mem_range'_1]
    omega
  simp [hr]

theorem C2_corner_membership_witness :
    1 ≤ 1 ∧ 1 + 1 < ([((0 : ℝ), (0 : ℝ)), (1, 0), (2, 0)] : List R2).length ∧
      ((1 : ℕ) ∈ detect_corners [((0 : ℝ), (0 : ℝ)), (1, 0), (2, 0)] 30 ↔
        (corner_v1_norm [((0 : ℝ), (0 : ℝ)), (1, 0), (2, 0)] 1 ≠ 0 ∧
          corner_v2_norm [((0 : ℝ), (0 : ℝ)), (1, 0), (2, 0)] 1 ≠ 0 ∧
          corner_angle_deg [((0 : ℝ), (0 : ℝ)), (1, 0), (2, 0)] 1 > 30)) :=
  ⟨le_rfl, by norm_num,
    C2_corner_membership [((0 : ℝ), (0 : ℝ)), (1, 0), (2, 0)] 30 1 le_rfl
      (by norm_num)⟩

/-! ## Projector (`coord_transformer.py`) -/

/-- The rotation of `local_to_gps` (lines 46-48): the pre-computed
`cos`/`sin` of `np.radians(rotation_deg)` applied as a standard planar
rotation of `(x, y)`. -/
noncomputable def rotation_apply (rotation_deg x y : ℝ) : ℝ × ℝ :=
  let rad := rotation_deg * (Real.pi / 180)
  let cos_r := Real.cos rad
  let sin_r := Real.sin rad
  (x * cos_r - y * sin_r, x * sin_r + y * cos_r)

/-- `CoordinateTransformer.local_to_gps`, parameterized by the external
`pymap3d.enu2geodetic` conversion `geo` (arguments: e, n, u, lat0, lon0, h0):
rotate unless `rotation_deg = 0`, convert, and return the latitude/longitude
with the unchanged relative altitude. -/
noncomputable def local_to_gps (geo : ℝ → ℝ → ℝ → ℝ → ℝ → ℝ → ℝ × ℝ × ℝ)
    (home_lat home_lon home_alt rotation_deg x y altitude : ℝ) : ℝ × ℝ × ℝ :=
  let rotated := if rotation_deg ≠ 0 then rotation_apply rotation_deg x y
    else (x, y)
  let res := geo rotated.1 rotated.2 altitude home_lat home_lon home_alt
  (res.1, res.2.1, altitude)

/-- Modelled from the spec: the plain ENU-to-geodetic conversion with no
rotation applied, keeping the relative altitude (§4.3); the geodetic step
itself is the same external `pymap3d.enu2geodetic` function `geo`. -/
noncomputable def plain_enu_to_geo (geo : ℝ → ℝ → ℝ → ℝ → ℝ → ℝ → ℝ × ℝ × ℝ)
    (home_lat home_lon home_alt x y altitude : ℝ) : ℝ × ℝ × ℝ :=
  let res := geo x y altitude home_lat home_lon home_alt
  (res.1, res.2.1, altitude)

/-- C9: with rotation 0 the transformer output equals the plain
ENU-to-geodetic conversion exactly, for every external geodetic conversion
function — and the rotation formula applied at zero degrees is itself the
identity, so the skip-rotation branch and the rotation branch agree
(exact equality, hence well within the 1e-9° tolerance). -/
theorem C9_zero_rotation_no_op
    (geo : ℝ → ℝ → ℝ → ℝ → ℝ → ℝ → ℝ × ℝ × ℝ)
    (home_lat home_lon home_alt x y altitude : ℝ) :
    local_to_gps geo home_lat home_lon home_alt 0 x y altitude
        = plain_enu_to_geo geo home_lat home_lon home_alt x y altitude ∧
      rotation_apply 0 x y = (x, y) := by
  constructor
  · unfold local_to_gps plain_enu_to_geo
    simp
  · unfold rotation_apply
    simp

end Skyscribe
